import Mathlib

/-!
Verification of the Algorithmic-Trading repository (data.py, indicators.py,
strategy.py) against its natural-language specification.

Conventions of the shallow embedding:
* Prices and indicator values are rationals (`ℚ`); IEEE NaN is modelled as
  `none` in `Option ℚ`.  All comparisons against a `none` value are `false`,
  mirroring IEEE comparison semantics with NaN.
* NumPy arrays become `List ℚ` / `List (List ℚ)` (rows = days, one entry per
  stock in each row).
* Randomness is modelled by an oracle (`Rng`) that records the realized value
  of every draw the source makes; the source's distributions constrain which
  oracles are possible, not the structure of the computation.
* `np.average` error cases (mismatched weight length, zero weight sum) are
  modelled as `none`; all theorems stay inside the well-defined domain.
-/

namespace Trading

/-! ## Indicators (indicators.py) -/

/-- Model of `np.average(xs, weights=w)`: the unweighted mean when `w` is
`none`, else `sum(w*x)/sum(w)`.  The source raises on an empty array,
mismatched length, or zero weight sum; those error cases are modelled as
`none`. -/
def npAverage (xs : List ℚ) : Option (List ℚ) → Option ℚ
  | none => if xs.length = 0 then none else some (xs.sum / (xs.length : ℚ))
  | some ws =>
      if ws.length = xs.length ∧ ws.sum ≠ 0 then
        some ((List.zipWith (· * ·) ws xs).sum / ws.sum)
      else none

/-- `moving_average` from indicators.py: entries before day `n-1` are NaN;
from day `n-1` on, `np.average` of the window `stock_price[d-n+1 : d+1]`,
weighted when a non-empty `weights` list is passed (the source turns the
default `[]` into `None`).  Python's `d-n+1` is written `d+1-n`, equal on the
days where the window is used (`d ≥ n-1`). -/
def moving_average (stock_price : List ℚ) (n : Nat) (weights : List ℚ) :
    List (Option ℚ) :=
  let w := if weights.isEmpty then none else some weights
  (List.range stock_price.length).map fun d =>
    if d < n - 1 then none
    else npAverage ((stock_price.drop (d + 1 - n)).take n) w

/-- Model of `np.diff`: `out[i] = xs[i+1] - xs[i]`. -/
def npDiff (xs : List ℚ) : List ℚ :=
  List.zipWith (fun a b => b - a) xs xs.tail

/-- Model of `np.max` on a non-empty array (`0` on the empty array, which the
source never reaches: windows are non-empty for `n ≥ 1`). -/
def npMax : List ℚ → ℚ
  | [] => 0
  | x :: xs => xs.foldl max x

/-- Model of `np.min` on a non-empty array (`0` on the empty array). -/
def npMin : List ℚ → ℚ
  | [] => 0
  | x :: xs => xs.foldl min x

/-- The two oscillator types accepted by `oscillator`. -/
inductive OscType
  | stochastic
  | RSI
deriving DecidableEq

/-- `pos_average` of the RSI branch: the mean of the positive differences,
or `0` when there are none (`np.any(diffs > 0)` false). -/
def pos_average (diffs : List ℚ) : ℚ :=
  let pos := diffs.filter fun x => 0 < x
  if pos.isEmpty then 0 else pos.sum / (pos.length : ℚ)

/-- `neg_average` of the RSI branch: the absolute value of the mean of the
negative differences, or `0` when there are none. -/
def neg_average (diffs : List ℚ) : ℚ :=
  let neg := diffs.filter fun x => x < 0
  if neg.isEmpty then 0 else |neg.sum / (neg.length : ℚ)|

/-- Body of the `oscillator` day loop at one day `d ≥ n-1`: the stochastic or
RSI value over the window `stock_price[d-n+1 : d+1]`. -/
def oscStep (stock_price : List ℚ) (n : Nat) (t : OscType) (d : Nat) :
    Option ℚ :=
  let window := (stock_price.drop (d + 1 - n)).take n
  match t with
  | .stochastic =>
      let highest := npMax window
      let lowest := npMin window
      let delta := stock_price.getD d 0 - lowest
      let deltamax := highest - lowest
      if deltamax = 0 then none else some (delta / deltamax)
  | .RSI =>
      let diffs := npDiff window
      if pos_average diffs = 0 ∧ neg_average diffs = 0 then none
      else if neg_average diffs = 0 then some 1
      else some (1 - 1 / (1 + pos_average diffs / neg_average diffs))

/-- `oscillator` from indicators.py: NaN before day `n-1` (the source writes
the loop results first and then overwrites `osc[:n-1]` with NaN; net effect is
the same), `oscStep` from day `n-1` on. -/
def oscillator (stock_price : List ℚ) (n : Nat) (t : OscType) :
    List (Option ℚ) :=
  (List.range stock_price.length).map fun d =>
    if d < n - 1 then none else oscStep stock_price n t d

/-! ## Strategies (strategy.py)

The `trading_solution.process` module (`create_portfolio`, `buy`, `sell`) is
not part of the repository sources; per the specification (§4.3) `buy(day,
stock, …)` and `sell(day, stock, …)` read `stock_prices[day, stock]` and
otherwise mutate only the portfolio and the ledger.  The strategies are
therefore modelled at the level of the sequence of `buy`/`sell` calls they
issue; a call whose `day` is outside the price matrix corresponds to an
out-of-bounds NumPy access, which aborts the run (modelled by the `Bool`
"completed" flag). -/

/-- A buy or sell command. -/
inductive Action
  | buy
  | sell
deriving DecidableEq

/-- One `proc.buy`/`proc.sell` call: action, day index, stock index. -/
structure Call where
  act : Action
  day : Nat
  stock : Nat
deriving DecidableEq

/-- Comparison `a < b` on NaN-able values: false when either side is NaN,
as in IEEE (and NumPy) semantics. -/
def oltO : Option ℚ → Option ℚ → Bool
  | some a, some b => decide (a < b)
  | _, _ => false

/-- Comparison `a ≤ b` on NaN-able values, false on NaN. -/
def oleO : Option ℚ → Option ℚ → Bool
  | some a, some b => decide (a ≤ b)
  | _, _ => false

/-- Comparison `a > b` on NaN-able values, false on NaN. -/
def ogtO : Option ℚ → Option ℚ → Bool
  | some a, some b => decide (b < a)
  | _, _ => false

/-- Comparison `a ≥ b` on NaN-able values, false on NaN. -/
def ogeO : Option ℚ → Option ℚ → Bool
  | some a, some b => decide (b ≤ a)
  | _, _ => false

/-- Comparison of a NaN-able value with a constant: `a > c`, false on NaN. -/
def ogtB (a : Option ℚ) (c : ℚ) : Bool := ogtO a (some c)

/-- `a ≤ c`, false on NaN. -/
def oleB (a : Option ℚ) (c : ℚ) : Bool := oleO a (some c)

/-- `a < c`, false on NaN. -/
def oltB (a : Option ℚ) (c : ℚ) : Bool := oltO a (some c)

/-- `a ≥ c`, false on NaN. -/
def ogeB (a : Option ℚ) (c : ℚ) : Bool := ogeO a (some c)

/-- The three outcomes of `rng.choice([-1, 0, 1])` in the `random`
strategy. -/
inductive Decision
  | sell
  | hold
  | buy
deriving DecidableEq

/-- The `random` strategy from strategy.py, as the list of `buy`/`sell`
calls it makes.  `dec day stock` is the realized random decision for that
day and stock.  Every `period` days each stock is bought or sold (or held);
on the last day every stock is sold.  Portfolio/ledger side effects live in
the external `process` module. -/
def random (dec : Nat → Nat → Decision) (stock_prices : List (List ℚ))
    (period : Nat) : List Call :=
  let days := stock_prices.length
  let N := (stock_prices.headD []).length
  ((List.range' 0 ((days + period - 1) / period) period).flatMap fun day =>
    (List.range N).filterMap fun stock =>
      match dec day stock with
      | .sell => some ⟨.sell, day, stock⟩
      | .hold => none
      | .buy => some ⟨.buy, day, stock⟩)
  ++ (List.range N).map fun stock => ⟨.sell, days - 1, stock⟩

/-- The decision taken by `crossing_averages` on one day: buy when the fast
average crosses the slow one from below (strict previous day, non-strict
current day), sell on the opposite crossing, nothing otherwise.  NaN
comparisons are false, so days with undefined averages decide nothing. -/
def crossingDecision (fma sma : List (Option ℚ)) (day : Nat) :
    Option Action :=
  if oltO (fma.getD (day - 1) none) (sma.getD (day - 1) none)
      && ogeO (fma.getD day none) (sma.getD day none) then some .buy
  else if ogtO (fma.getD (day - 1) none) (sma.getD (day - 1) none)
      && oleO (fma.getD day none) (sma.getD day none) then some .sell
  else none

/-- The per-stock body of `crossing_averages`: decisions for days
`period_sma … days-1`, then the forced sell on the last day. -/
def crossingStockCalls (stock_prices : List (List ℚ))
    (period_sma period_fma stock : Nat) : List Call :=
  let days := stock_prices.length
  let col := stock_prices.map fun r => r.getD stock 0
  let sma := moving_average col period_sma []
  let fma := moving_average col period_fma []
  ((List.range' period_sma (days - period_sma)).filterMap fun day =>
    (crossingDecision fma sma day).map fun a => Call.mk a day stock)
  ++ [⟨.sell, days - 1, stock⟩]

/-- The `crossing_averages` strategy from strategy.py, as the list of
`buy`/`sell` calls it makes over all stocks. -/
def crossing_averages (stock_prices : List (List ℚ))
    (period_sma period_fma : Nat) : List Call :=
  (List.range (stock_prices.headD []).length).flatMap
    (crossingStockCalls stock_prices period_sma period_fma)

/-- Events of the `momentum` day loop: a day whose oscillator values were
examined for a crossing, or a `buy`/`sell` call at a (possibly
out-of-bounds) day. -/
inductive MomEvent
  | eval (day : Nat)
  | trade (a : Action) (day : Nat)
deriving DecidableEq

/-- `osc[day-1] > low_t and osc[day] <= low_t` with `low_t = 0.25`. -/
def crossBelowB (osc : List (Option ℚ)) (day : Nat) : Bool :=
  ogtB (osc.getD (day - 1) none) (1/4) && oleB (osc.getD day none) (1/4)

/-- `osc[day-1] < high_t and osc[day] >= high_t` with `high_t = 0.75`. -/
def crossAboveB (osc : List (Option ℚ)) (day : Nat) : Bool :=
  oltB (osc.getD (day - 1) none) (3/4) && ogeB (osc.getD day none) (3/4)

/-- The `momentum` while-loop (strategy.py lines 137-148) for one stock.
On a crossing the day pointer jumps by `cool_down` and the trade happens at
the new day; otherwise the pointer advances by one.  A trade at a day `≥
days` is still issued (the call is made) but the out-of-bounds price access
inside it aborts the run: the `Bool` result is `false`.  The fuel argument
only bounds the recursion; `days + 1` steps are enough whenever
`cool_down ≥ 1`, and the source loops forever when `cool_down = 0` hits a
crossing (modelled as `false`, never completed). -/
def momLoop (osc : List (Option ℚ)) (days cool_down : Nat) :
    Nat → Nat → List MomEvent × Bool
  | _, 0 => ([], false)
  | day, fuel + 1 =>
    if day < days then
      if crossBelowB osc day then
        let t := day + cool_down
        if t < days then
          let r := momLoop osc days cool_down t fuel
          (.eval day :: .trade .buy t :: r.1, r.2)
        else ([.eval day, .trade .buy t], false)
      else if crossAboveB osc day then
        let t := day + cool_down
        if t < days then
          let r := momLoop osc days cool_down t fuel
          (.eval day :: .trade .sell t :: r.1, r.2)
        else ([.eval day, .trade .sell t], false)
      else
        let r := momLoop osc days cool_down (day + 1) fuel
        (.eval day :: r.1, r.2)
    else ([], true)

/-- The per-stock part of `momentum`: run the day loop on the stock's
oscillator series, keep its trades, and append the forced last-day sell when
the loop completed without an out-of-bounds trade. -/
def momStockCalls (stock_prices : List (List ℚ)) (n : Nat) (t : OscType)
    (cool_down stock : Nat) : List Call × Bool :=
  let days := stock_prices.length
  let col := stock_prices.map fun r => r.getD stock 0
  let r := momLoop (oscillator col n t) days cool_down n (days + 1)
  let calls := r.1.filterMap fun e =>
    match e with
    | .trade a d => some (Call.mk a d stock)
    | .eval _ => none
  if r.2 then (calls ++ [⟨.sell, days - 1, stock⟩], true) else (calls, false)

/-- Stock-by-stock driver of `momentum`: an abort in one stock's loop stops
the whole run (a Python exception propagates out of the stock loop). -/
def momRun (stock_prices : List (List ℚ)) (n : Nat) (t : OscType)
    (cool_down : Nat) : List Nat → List Call × Bool
  | [] => ([], true)
  | s :: rest =>
    let r := momStockCalls stock_prices n t cool_down s
    if r.2 then
      let r2 := momRun stock_prices n t cool_down rest
      (r.1 ++ r2.1, r2.2)
    else (r.1, false)

/-- The `momentum` strategy from strategy.py, as the list of `buy`/`sell`
calls it makes and whether the run completed (no out-of-bounds access). -/
def momentum (stock_prices : List (List ℚ)) (n : Nat) (t : OscType)
    (cool_down : Nat) : List Call × Bool :=
  momRun stock_prices n t cool_down
    (List.range (stock_prices.headD []).length)

/-! ## Data generation (data.py) -/

/-- Oracle for `np.random.default_rng()`: the realized value of every draw
the source makes, indexed by the day and stock at which the draw happens.
`normal day n` is the realized `rng.normal(0, volatility[n])` step,
`newsToday day n` the realized Bernoulli news trial, `durDraw`/`mDraw` the
raw draws behind `rng.integers(3, 15)` and `rng.normal(0, 2)`. -/
structure Rng where
  normal : Nat → Nat → ℚ
  newsToday : Nat → Nat → Bool
  durDraw : Nat → Nat → Nat
  mDraw : Nat → Nat → ℚ

/-- `news` from data.py, for the draw made on day `day` for stock `n`:
if there is news today, a drift of `m * volatility` repeated over the drawn
duration (in `[3, 15)`, matching `rng.integers(3, 15)`), otherwise `None`
(the function falls through without returning). The `chance` argument only
parametrizes the Bernoulli distribution, whose realized outcome the oracle
records. -/
def news (chance : ℚ) (volatility : ℚ) (rng : Rng) (day n : Nat) :
    Option (List ℚ) :=
  let _ := chance
  if rng.newsToday day n then
    let duration := 3 + rng.durDraw day n % 12
    let m := rng.mDraw day n
    let drift := m * volatility
    some (List.replicate duration drift)
  else none

/-- The inner `for n in range(N)` loop of `generate_stock_prices` for one
day: walks the stocks in order, accumulates news drift into the drift table
(over `duration = min(len(impact), number_of_days - day)` future days,
additively), and produces the day's price row `base[n] + drift[day][n]`,
where `base` is the pre-news random-walk row. -/
def stockLoop (impactOf : Nat → Option (List ℚ)) (base : Nat → ℚ)
    (number_of_days day : Nat) :
    List Nat → (Nat → Nat → ℚ) → List ℚ × (Nat → Nat → ℚ)
  | [], drift => ([], drift)
  | j :: rest, drift =>
    let driftNext :=
      match impactOf j with
      | some impact =>
          let duration := min impact.length (number_of_days - day)
          fun d k =>
            if k = j ∧ day ≤ d ∧ d < day + duration then
              drift d k + impact.getD (d - day) 0
            else drift d k
      | none => drift
    let r := stockLoop impactOf base number_of_days day rest driftNext
    ((base j + driftNext day j) :: r.1, r.2)

/-- The day loop of `generate_stock_prices`: starting from the previous
day's row, builds `k` further rows.  Each row starts from the random-walk
step `prev[n] + rng.normal(0, volatility[n])` and then the stock loop adds
news drift. -/
def genLoop (rng : Rng) (volatility : List ℚ) (N number_of_days : Nat) :
    Nat → Nat → List ℚ → (Nat → Nat → ℚ) → List (List ℚ)
  | 0, _, _, _ => []
  | k + 1, day, prev, drift =>
    let base := fun j => prev.getD j 0 + rng.normal day j
    let impactOf := fun j => news 1 (volatility.getD j 0) rng day j
    let r := stockLoop impactOf base number_of_days day (List.range N) drift
    r.1 :: genLoop rng volatility N number_of_days k (day + 1) r.1 r.2

/-- The post-generation failure check (data.py lines 80-82):
`np.argmax(stock_prices <= 0)` flattens the `[days, N]` boolean mask in
row-major order, so the resulting index is `day * N + stock` of the first
non-positive entry; rows from that *flattened* index on are set to NaN
(nothing at all when it is `≥ days`). -/
def applyFailureCheck (rows : List (List ℚ)) : List (List (Option ℚ)) :=
  match (rows.flatten).findIdx? (fun x => x ≤ 0) with
  | none => rows.map fun r => r.map some
  | some k => rows.mapIdx fun i r =>
      if k ≤ i then r.map fun _ => (none : Option ℚ) else r.map some

/-- `generate_stock_prices` from data.py: day 0 is `initial_price`, each
further day adds a random-walk step and news drift per stock, and the
failure check finally replaces rows by NaN from the first non-positive
entry's flattened index on.  (`number_of_days = 0` raises in the source when
writing row 0 and is modelled as the empty matrix.) -/
def generate_stock_prices (rng : Rng) (number_of_days : Nat)
    (initial_price volatility : List ℚ) : List (List (Option ℚ)) :=
  if number_of_days = 0 then []
  else
    let N := initial_price.length
    let raw := initial_price ::
      genLoop rng volatility N number_of_days (number_of_days - 1) 1
        initial_price (fun _ _ => 0)
    applyFailureCheck raw

/-- The `method == 'generate'` branch of `get_data` from data.py: with a
missing initial price or volatility it prints one explanatory message and
returns `None` without generating anything; with both present it returns
`generate_stock_prices(5*365, initial_price, volatility)`.  (The
`method == 'read'` branch loads a file — an external collaborator, out of
scope per §1 of the specification — and is not part of this model.) -/
def get_data_generate (rng : Rng)
    (initial_price volatility : Option (List ℚ)) :
    List String × Option (List (List (Option ℚ))) :=
  match initial_price with
  | none => (["Please specify the initial price for each stock."], none)
  | some ip =>
    match volatility with
    | none => (["Please specify the volatility for each stock."], none)
    | some vol => ([], some (generate_stock_prices rng (5 * 365) ip vol))

/-! ## Theorems -/

/-- Realized random draws for the failure-cascade counterexample: no news,
and the single non-zero random-walk step sends stock 1 to `-1` on day 1. -/
def exRng : Rng where
  normal := fun day j => if day = 1 ∧ j = 1 then -3 else 0
  newsToday := fun _ _ => false
  durDraw := fun _ _ => 0
  mDraw := fun _ _ => 0

/-- C1: with two stocks over three days and stock 1 falling to `-1` on
day 1, the generated matrix keeps every price finite: `np.argmax` flattens
the `stock_prices <= 0` mask, so the NaN-fill starts at flattened index
`1*2 + 1 = 3`, which is past the last row.  Day 1 is the first day with a
non-positive price, yet no entry of any day `≥ 1` is NaN — contradicting
the claimed cascade (and the docstring "no further share prices are
simulated"). -/
theorem generate_cascade_failing_input :
    generate_stock_prices exRng 3 [5, 2] [1, 1] =
      [[some 5, some 2], [some 5, some (-1)], [some 5, some (-1)]] ∧
    ((generate_stock_prices exRng 3 [5, 2] [1, 1]).getD 1 []).getD 1 none
      = some (-1) ∧
    ((-1 : ℚ) ≤ 0) ∧
    ((generate_stock_prices exRng 3 [5, 2] [1, 1]).getD 2 []).getD 0 none
      = some 5 := by
  refine ⟨?_, ?_, ?_, ?_⟩ <;> with_unfolding_all decide

/-- C2: on the four-day single-stock series `[1, 2, 1, 1]` with oscillator
period 2 and `cool_down = 10`, the momentum strategy detects the crossing
below `0.25` at day 2 and then calls `buy` with day `2 + 10 = 12`, although
the series has only 4 days: the price access `stock_prices[12, 0]` is out of
bounds. -/
theorem momentum_out_of_bounds_call :
    Call.mk .buy 12 0 ∈ (momentum [[1], [2], [1], [1]] 2 .stochastic 10).1 ∧
    ([[1], [2], [1], [1]] : List (List ℚ)).length ≤ 12 := by
  constructor <;> with_unfolding_all decide

/-- C10: the generate branch of `get_data`: a missing initial price (or,
with it present, a missing volatility) produces exactly one "cannot
proceed" message and no data at all; with both arguments present it returns
the generated price matrix. -/
theorem get_data_generate_spec (rng : Rng) :
    (∀ vol, get_data_generate rng none vol =
      (["Please specify the initial price for each stock."], none)) ∧
    (∀ ip, get_data_generate rng (some ip) none =
      (["Please specify the volatility for each stock."], none)) ∧
    (∀ ip vol, get_data_generate rng (some ip) (some vol) =
      ([], some (generate_stock_prices rng (5 * 365) ip vol))) :=
  ⟨fun _ => rfl, fun _ => rfl, fun _ _ => rfl⟩

/-- C9: `moving_average` with period 1 and no weights is the identity on the
price series (no NaN prefix: `1 - 1 = 0` days are undefined, and each
window is the single current price). -/
theorem moving_average_one_eq_input (p : List ℚ) :
    moving_average p 1 [] = p.map some := by
  apply List.ext_getElem
  · simp [moving_average]
  · intro i h1 h2
    have hip : i < p.length := by simpa [moving_average] using h1
    simp only [moving_average, List.isEmpty_nil, if_true]
    rw [List.getElem_map, List.getElem_map, List.getElem_range]
    have h0 : ¬ (i < 1 - 1) := by omega
    have hi1 : i + 1 - 1 = i := by omega
    rw [if_neg h0, hi1, List.drop_eq_getElem_cons hip, List.take_succ_cons,
      List.take_zero]
    simp [npAverage]

/-- C4: a NaN among the indicator values consulted by a crossing test makes
every comparison false: `crossing_averages` decides no action on that day,
and the momentum loop detects neither crossing and simply advances the day
pointer by one, issuing no trade.  No branch raises: the comparisons are
total. -/
theorem nan_indicator_no_command
    (fma sma : List (Option ℚ)) (day1 : Nat)
    (osc : List (Option ℚ)) (day2 : Nat)
    (h1 : fma.getD (day1 - 1) none = none ∨ sma.getD (day1 - 1) none = none ∨
          fma.getD day1 none = none ∨ sma.getD day1 none = none)
    (h2 : osc.getD (day2 - 1) none = none ∨ osc.getD day2 none = none) :
    crossingDecision fma sma day1 = none ∧
    crossBelowB osc day2 = false ∧
    crossAboveB osc day2 = false ∧
    (∀ days cool_down fuel, day2 < days →
      momLoop osc days cool_down day2 (fuel + 1) =
        (.eval day2 :: (momLoop osc days cool_down (day2 + 1) fuel).1,
          (momLoop osc days cool_down (day2 + 1) fuel).2)) := by
  have hb : crossBelowB osc day2 = false := by
    rcases h2 with h | h <;>
      · unfold crossBelowB ogtB oleB ogtO oleO
        rw [h]
        cases hx : osc.getD (day2 - 1) none <;> cases hy : osc.getD day2 none <;>
          simp_all
  have ha : crossAboveB osc day2 = false := by
    rcases h2 with h | h <;>
      · unfold crossAboveB oltB ogeB oltO ogeO
        rw [h]
        cases hx : osc.getD (day2 - 1) none <;> cases hy : osc.getD day2 none <;>
          simp_all
  refine ⟨?_, hb, ha, ?_⟩
  · unfold crossingDecision
    rcases h1 with h | h | h | h <;>
      rw [h] <;>
      cases hx : fma.getD (day1 - 1) none <;>
      cases hy : sma.getD (day1 - 1) none <;>
      cases hz : fma.getD day1 none <;>
      cases hw : sma.getD day1 none <;>
      simp_all [oltO, ogeO, ogtO, oleO]
  · intro days cool_down fuel hlt
    simp [momLoop, hlt, hb, ha]

/-- Witness for C4 at a concrete input: a NaN fast average on day 0 and a
NaN oscillator value on day 1. -/
theorem nan_indicator_no_command_witness :
    (([none] : List (Option ℚ)).getD 0 none = none) ∧
    (([some 1, none] : List (Option ℚ)).getD 1 none = none) ∧
    crossingDecision [none] [some 1] 0 = none ∧
    crossBelowB [some 1, none] 1 = false ∧
    crossAboveB [some 1, none] 1 = false ∧
    momLoop [some 1, none] 2 1 1 4 =
      (.eval 1 :: (momLoop [some 1, none] 2 1 2 3).1,
        (momLoop [some 1, none] 2 1 2 3).2) := by
  have h := nan_indicator_no_command [none] [some 1] 0 [some 1, none] 1
    (Or.inl rfl) (Or.inr rfl)
  exact ⟨rfl, rfl, h.1, h.2.1, h.2.2.1, h.2.2.2 2 1 3 (by decide)⟩

/-- Entry `d` of `moving_average`, for `d` inside the series. -/
lemma moving_average_getD (p : List ℚ) (n : Nat) (w : List ℚ) (d : Nat)
    (hd : d < p.length) :
    (moving_average p n w).getD d none =
      if d < n - 1 then none
      else npAverage ((p.drop (d + 1 - n)).take n)
        (if w.isEmpty then none else some w) := by
  simp only [moving_average]
  rw [List.getD_eq_getElem?_getD, List.getElem?_map, List.getElem?_range hd]
  rfl

/-- The averaging window at a day `d ≥ n-1` inside the series has exactly
`n` entries. -/
lemma window_length (p : List ℚ) (n d : Nat) (hn : 1 ≤ n) (hd1 : n - 1 ≤ d)
    (hd2 : d < p.length) :
    ((p.drop (d + 1 - n)).take n).length = n := by
  rw [List.length_take, List.length_drop]
  omega

/-- C5: `moving_average` is aligned with the input, NaN before day `n-1`,
and from day `n-1` on equals the average of the `n`-day window ending at
`d` — unweighted without weights, else weighted by the given length-`n`
weights in window order (oldest first, the order of the slice). -/
theorem moving_average_spec (p : List ℚ) (n : Nat) (w : List ℚ) (d : Nat)
    (hn : 1 ≤ n)
    (hw : w = [] ∨ (w.length = n ∧ w.sum ≠ 0))
    (hd : d < p.length) :
    (moving_average p n w).length = p.length ∧
    (d < n - 1 → (moving_average p n w).getD d none = none) ∧
    (n - 1 ≤ d → (moving_average p n w).getD d none =
      (if w = [] then some (((p.drop (d + 1 - n)).take n).sum / (n : ℚ))
       else some ((List.zipWith (· * ·) w ((p.drop (d + 1 - n)).take n)).sum
          / w.sum))) := by
  refine ⟨by simp [moving_average], fun hlt => ?_, fun hge => ?_⟩
  · rw [moving_average_getD p n w d hd, if_pos hlt]
  · rw [moving_average_getD p n w d hd, if_neg (by omega)]
    have hwin := window_length p n d hn hge hd
    rcases hw with hw | ⟨hwl, hws⟩
    · subst hw
      rw [if_pos rfl]
      show npAverage _ none = _
      simp only [npAverage, hwin]
      rw [if_neg (by omega)]
    · have hne : ¬ w = [] := by
        intro h; rw [h] at hwl; simp at hwl; omega
      rw [if_neg hne]
      have hopt : (if w.isEmpty then (none : Option (List ℚ)) else some w)
          = some w := by
        cases w with
        | nil => exact absurd rfl hne
        | cons a t => rfl
      rw [hopt]
      simp only [npAverage]
      have hcond : w.length = (List.take n (List.drop (d + 1 - n) p)).length
          ∧ w.sum ≠ 0 := ⟨by rw [hwl, hwin], hws⟩
      rw [if_pos hcond]

/-- Witness for C5 at concrete inputs, exercising both the unweighted and
the weighted case: series `[1,2,3]`, period 2, day 2. -/
theorem moving_average_spec_witness :
    ((1:Nat) ≤ 2 ∧ (2:Nat) < 3 ∧
      (moving_average [1, 2, 3] 2 []).length = 3 ∧
      ((2:Nat) < 2 - 1 → (moving_average [1, 2, 3] 2 []).getD 2 none = none) ∧
      ((2:Nat) - 1 ≤ 2 → (moving_average [1, 2, 3] 2 []).getD 2 none =
        (if ([] : List ℚ) = [] then
          some (((([1, 2, 3] : List ℚ).drop (2 + 1 - 2)).take 2).sum / (2 : ℚ))
         else some ((List.zipWith (· * ·) []
            ((([1, 2, 3] : List ℚ).drop (2 + 1 - 2)).take 2)).sum
              / ([] : List ℚ).sum)))) ∧
    (([1, 3] : List ℚ).sum ≠ 0 ∧
      ((2:Nat) - 1 ≤ 2 → (moving_average [1, 2, 3] 2 [1, 3]).getD 2 none =
        (if ([1, 3] : List ℚ) = [] then
          some (((([1, 2, 3] : List ℚ).drop (2 + 1 - 2)).take 2).sum / (2 : ℚ))
         else some ((List.zipWith (· * ·) [1, 3]
            ((([1, 2, 3] : List ℚ).drop (2 + 1 - 2)).take 2)).sum
              / ([1, 3] : List ℚ).sum)))) := by
  have hs : ([1, 3] : List ℚ).sum ≠ 0 := by with_unfolding_all decide
  exact ⟨⟨by decide, by decide,
      (moving_average_spec [1, 2, 3] 2 [] 2 (by decide) (Or.inl rfl)
        (by decide)).1,
      (moving_average_spec [1, 2, 3] 2 [] 2 (by decide) (Or.inl rfl)
        (by decide)).2.1,
      (moving_average_spec [1, 2, 3] 2 [] 2 (by decide) (Or.inl rfl)
        (by decide)).2.2⟩,
    hs,
    (moving_average_spec [1, 2, 3] 2 [1, 3] 2 (by decide)
      (Or.inr ⟨rfl, hs⟩) (by decide)).2.2⟩

/-- The initial accumulator is below `foldl max`. -/
lemma init_le_foldl_max : ∀ (l : List ℚ) (a : ℚ), a ≤ l.foldl max a := by
  intro l
  induction l with
  | nil => intro a; exact le_refl a
  | cons y ys ih =>
      intro a
      exact le_trans (le_max_left a y) (ih (max a y))

/-- Every member is below `foldl max`. -/
lemma mem_le_foldl_max : ∀ (l : List ℚ) (a x : ℚ), x ∈ l → x ≤ l.foldl max a := by
  intro l
  induction l with
  | nil => intro a x h; cases h
  | cons y ys ih =>
      intro a x h
      rcases List.mem_cons.1 h with h | h
      · subst h
        exact le_trans (le_max_right a x) (init_le_foldl_max ys (max a x))
      · exact ih (max a y) x h

/-- Every member of a list is at most its `np.max`. -/
lemma le_npMax_of_mem {x : ℚ} {l : List ℚ} (h : x ∈ l) : x ≤ npMax l := by
  cases l with
  | nil => cases h
  | cons y ys =>
      rcases List.mem_cons.1 h with h | h
      · subst h; exact init_le_foldl_max ys x
      · exact mem_le_foldl_max ys y x h

/-- `foldl min` is below the initial accumulator. -/
lemma foldl_min_le_init : ∀ (l : List ℚ) (a : ℚ), l.foldl min a ≤ a := by
  intro l
  induction l with
  | nil => intro a; exact le_refl a
  | cons y ys ih =>
      intro a
      exact le_trans (ih (min a y)) (min_le_left a y)

/-- `foldl min` is below every member. -/
lemma foldl_min_le_mem : ∀ (l : List ℚ) (a x : ℚ), x ∈ l → l.foldl min a ≤ x := by
  intro l
  induction l with
  | nil => intro a x h; cases h
  | cons y ys ih =>
      intro a x h
      rcases List.mem_cons.1 h with h | h
      · subst h
        exact le_trans (foldl_min_le_init ys (min a x)) (min_le_right a x)
      · exact ih (min a y) x h

/-- Every member of a list is at least its `np.min`. -/
lemma npMin_le_of_mem {x : ℚ} {l : List ℚ} (h : x ∈ l) : npMin l ≤ x := by
  cases l with
  | nil => cases h
  | cons y ys =>
      rcases List.mem_cons.1 h with h | h
      · subst h; exact foldl_min_le_init ys x
      · exact foldl_min_le_mem ys y x h

/-- The current price is a member of its own window. -/
lemma getD_mem_window (p : List ℚ) (n d : Nat) (hn : 1 ≤ n) (hd1 : n - 1 ≤ d)
    (hd2 : d < p.length) :
    p.getD d 0 ∈ (p.drop (d + 1 - n)).take n := by
  have hwin := window_length p n d hn hd1 hd2
  have hidx : n - 1 < ((p.drop (d + 1 - n)).take n).length := by omega
  have hii : d + 1 - n + (n - 1) = d := by omega
  have hget : ((p.drop (d + 1 - n)).take n).get ⟨n - 1, hidx⟩ = p.getD d 0 := by
    rw [List.get_eq_getElem, List.getElem_take, List.getElem_drop,
      List.getD_eq_getElem?_getD, List.getElem?_eq_getElem hd2, Option.getD_some]
    simp only [hii]
  rw [← hget]
  exact List.get_mem _ _ hidx

/-- Entry `d` of `oscillator`, for `d` inside the series. -/
lemma oscillator_getD (p : List ℚ) (n : Nat) (t : OscType) (d : Nat)
    (hd : d < p.length) :
    (oscillator p n t).getD d none =
      if d < n - 1 then none else oscStep p n t d := by
  simp only [oscillator]
  rw [List.getD_eq_getElem?_getD, List.getElem?_map, List.getElem?_range hd]
  rfl

/-- C6: the stochastic oscillator is NaN before day `n-1`; from day `n-1`
on it is NaN exactly when the window is flat (`max = min`), and otherwise
equals `(price[d] - min) / (max - min)`, a value in `[0, 1]`. -/
theorem oscillator_stochastic_spec (p : List ℚ) (n d : Nat)
    (hn : 1 ≤ n) (hd : d < p.length) :
    (oscillator p n .stochastic).length = p.length ∧
    (d < n - 1 → (oscillator p n .stochastic).getD d none = none) ∧
    (n - 1 ≤ d →
      (npMax ((p.drop (d + 1 - n)).take n) = npMin ((p.drop (d + 1 - n)).take n) →
        (oscillator p n .stochastic).getD d none = none) ∧
      (npMax ((p.drop (d + 1 - n)).take n) ≠ npMin ((p.drop (d + 1 - n)).take n) →
        (oscillator p n .stochastic).getD d none =
          some ((p.getD d 0 - npMin ((p.drop (d + 1 - n)).take n))
            / (npMax ((p.drop (d + 1 - n)).take n)
              - npMin ((p.drop (d + 1 - n)).take n))) ∧
        0 ≤ (p.getD d 0 - npMin ((p.drop (d + 1 - n)).take n))
            / (npMax ((p.drop (d + 1 - n)).take n)
              - npMin ((p.drop (d + 1 - n)).take n)) ∧
        (p.getD d 0 - npMin ((p.drop (d + 1 - n)).take n))
            / (npMax ((p.drop (d + 1 - n)).take n)
              - npMin ((p.drop (d + 1 - n)).take n)) ≤ 1)) := by
  refine ⟨by simp [oscillator], fun hlt => ?_, fun hge => ?_⟩
  · rw [oscillator_getD p n .stochastic d hd, if_pos hlt]
  · have hmem := getD_mem_window p n d hn hge hd
    have hlo := npMin_le_of_mem hmem
    have hhi := le_npMax_of_mem hmem
    have hlole : npMin ((p.drop (d + 1 - n)).take n)
        ≤ npMax ((p.drop (d + 1 - n)).take n) := le_trans hlo hhi
    constructor
    · intro heq
      rw [oscillator_getD p n .stochastic d hd, if_neg (by omega)]
      simp only [oscStep]
      rw [if_pos (by rw [heq]; ring)]
    · intro hne
      have hpos : 0 < npMax ((p.drop (d + 1 - n)).take n)
          - npMin ((p.drop (d + 1 - n)).take n) :=
        sub_pos.2 (lt_of_le_of_ne hlole (Ne.symm hne))
      refine ⟨?_, div_nonneg (sub_nonneg.2 hlo) (le_of_lt hpos), ?_⟩
      · rw [oscillator_getD p n .stochastic d hd, if_neg (by omega)]
        simp only [oscStep]
        rw [if_neg (by exact ne_of_gt hpos)]
      · rw [div_le_one hpos]
        exact sub_le_sub_right hhi _

/-- Witness for C6 at a concrete input: series `[1,2,1,1]`, period 2,
day 1 (rising window, value 1) — all hypotheses discharged at `n = 2`,
`d = 1`. -/
theorem oscillator_stochastic_spec_witness :
    ((1:Nat) ≤ 2 ∧ (1:Nat) < 4) ∧
    ((2:Nat) - 1 ≤ 1 →
      (npMax ((([1, 2, 1, 1] : List ℚ).drop (1 + 1 - 2)).take 2)
          = npMin ((([1, 2, 1, 1] : List ℚ).drop (1 + 1 - 2)).take 2) →
        (oscillator [1, 2, 1, 1] 2 .stochastic).getD 1 none = none) ∧
      (npMax ((([1, 2, 1, 1] : List ℚ).drop (1 + 1 - 2)).take 2)
          ≠ npMin ((([1, 2, 1, 1] : List ℚ).drop (1 + 1 - 2)).take 2) →
        (oscillator [1, 2, 1, 1] 2 .stochastic).getD 1 none =
          some ((([1, 2, 1, 1] : List ℚ).getD 1 0
              - npMin ((([1, 2, 1, 1] : List ℚ).drop (1 + 1 - 2)).take 2))
            / (npMax ((([1, 2, 1, 1] : List ℚ).drop (1 + 1 - 2)).take 2)
              - npMin ((([1, 2, 1, 1] : List ℚ).drop (1 + 1 - 2)).take 2))) ∧
        0 ≤ (([1, 2, 1, 1] : List ℚ).getD 1 0
              - npMin ((([1, 2, 1, 1] : List ℚ).drop (1 + 1 - 2)).take 2))
            / (npMax ((([1, 2, 1, 1] : List ℚ).drop (1 + 1 - 2)).take 2)
              - npMin ((([1, 2, 1, 1] : List ℚ).drop (1 + 1 - 2)).take 2)) ∧
        (([1, 2, 1, 1] : List ℚ).getD 1 0
              - npMin ((([1, 2, 1, 1] : List ℚ).drop (1 + 1 - 2)).take 2))
            / (npMax ((([1, 2, 1, 1] : List ℚ).drop (1 + 1 - 2)).take 2)
              - npMin ((([1, 2, 1, 1] : List ℚ).drop (1 + 1 - 2)).take 2)) ≤ 1)) :=
  ⟨⟨by decide, by decide⟩,
    (oscillator_stochastic_spec [1, 2, 1, 1] 2 1 (by decide) (by decide)).2.2⟩

/-- `pos_average` is never negative. -/
lemma pos_average_nonneg (l : List ℚ) : 0 ≤ pos_average l := by
  simp only [pos_average]
  split_ifs
  · exact le_refl 0
  · apply div_nonneg
    · apply List.sum_nonneg
      intro x hx
      have hx2 := (List.mem_filter.1 hx).2
      have : (0 : ℚ) < x := by simpa using hx2
      exact le_of_lt this
    · exact Nat.cast_nonneg _

/-- A non-zero `pos_average` is positive: it is a mean of positive
numbers. -/
lemma pos_average_pos (l : List ℚ) (h : pos_average l ≠ 0) :
    0 < pos_average l :=
  lt_of_le_of_ne (pos_average_nonneg l) (Ne.symm h)

/-- `neg_average` is never negative (it is `0` or an absolute value). -/
lemma neg_average_nonneg (l : List ℚ) : 0 ≤ neg_average l := by
  simp only [neg_average]
  split_ifs
  · exact le_refl 0
  · exact abs_nonneg _

/-- A non-zero `neg_average` is positive. -/
lemma neg_average_pos (l : List ℚ) (h : neg_average l ≠ 0) :
    0 < neg_average l :=
  lt_of_le_of_ne (neg_average_nonneg l) (Ne.symm h)

/-- C3 (amended): from day `n-1` on, the RSI value is NaN when both
averages are 0, is `1` when only the negative average is 0, and otherwise
equals `1 - 1/(1 + pos_avg/neg_avg)`, which lies in `[0, 1)` — strictly
inside `(0, 1)` exactly when the positive average is non-zero (with no
positive difference in the window the value is exactly `0`, on the
boundary). -/
theorem oscillator_RSI_spec (p : List ℚ) (n d : Nat)
    (hn : 1 ≤ n) (hd1 : n - 1 ≤ d) (hd2 : d < p.length) :
    ((pos_average (npDiff ((p.drop (d + 1 - n)).take n)) = 0 ∧
      neg_average (npDiff ((p.drop (d + 1 - n)).take n)) = 0) →
      (oscillator p n .RSI).getD d none = none) ∧
    (neg_average (npDiff ((p.drop (d + 1 - n)).take n)) = 0 →
      pos_average (npDiff ((p.drop (d + 1 - n)).take n)) ≠ 0 →
      (oscillator p n .RSI).getD d none = some 1) ∧
    (neg_average (npDiff ((p.drop (d + 1 - n)).take n)) ≠ 0 →
      (oscillator p n .RSI).getD d none =
        some (1 - 1 / (1 + pos_average (npDiff ((p.drop (d + 1 - n)).take n))
          / neg_average (npDiff ((p.drop (d + 1 - n)).take n)))) ∧
      0 ≤ 1 - 1 / (1 + pos_average (npDiff ((p.drop (d + 1 - n)).take n))
          / neg_average (npDiff ((p.drop (d + 1 - n)).take n))) ∧
      1 - 1 / (1 + pos_average (npDiff ((p.drop (d + 1 - n)).take n))
          / neg_average (npDiff ((p.drop (d + 1 - n)).take n))) < 1 ∧
      (pos_average (npDiff ((p.drop (d + 1 - n)).take n)) ≠ 0 →
        0 < 1 - 1 / (1 + pos_average (npDiff ((p.drop (d + 1 - n)).take n))
          / neg_average (npDiff ((p.drop (d + 1 - n)).take n))))) := by
  have hosc : (oscillator p n .RSI).getD d none = oscStep p n .RSI d := by
    rw [oscillator_getD p n .RSI d hd2, if_neg (by omega)]
  refine ⟨fun h => ?_, fun hng hp => ?_, fun hng => ?_⟩
  · rw [hosc]
    simp only [oscStep]
    rw [if_pos h]
  · rw [hosc]
    simp only [oscStep]
    rw [if_neg (by tauto), if_pos hng]
  · have hNg := neg_average_pos _ hng
    have hP0 := pos_average_nonneg (npDiff ((p.drop (d + 1 - n)).take n))
    have hr : 0 ≤ pos_average (npDiff ((p.drop (d + 1 - n)).take n))
        / neg_average (npDiff ((p.drop (d + 1 - n)).take n)) :=
      div_nonneg hP0 (le_of_lt hNg)
    have h1r : 0 < 1 + pos_average (npDiff ((p.drop (d + 1 - n)).take n))
        / neg_average (npDiff ((p.drop (d + 1 - n)).take n)) := by linarith
    have hinv0 : 0 < 1 / (1 + pos_average (npDiff ((p.drop (d + 1 - n)).take n))
        / neg_average (npDiff ((p.drop (d + 1 - n)).take n))) :=
      one_div_pos.2 h1r
    have hinv1 : 1 / (1 + pos_average (npDiff ((p.drop (d + 1 - n)).take n))
        / neg_average (npDiff ((p.drop (d + 1 - n)).take n))) ≤ 1 := by
      rw [div_le_one h1r]; linarith
    refine ⟨?_, by linarith, by linarith, fun hp => ?_⟩
    · rw [hosc]
      simp only [oscStep]
      rw [if_neg (by tauto), if_neg hng]
    · have hPpos := pos_average_pos _ hp
      have hrpos : 0 < pos_average (npDiff ((p.drop (d + 1 - n)).take n))
          / neg_average (npDiff ((p.drop (d + 1 - n)).take n)) :=
        div_pos hPpos hNg
      have : 1 / (1 + pos_average (npDiff ((p.drop (d + 1 - n)).take n))
          / neg_average (npDiff ((p.drop (d + 1 - n)).take n))) < 1 := by
        rw [div_lt_one h1r]; linarith
      linarith

/-- Witness for C3 at a concrete input: the strictly falling series
`[3,2,1]` with period 3 at day 2 is in the "otherwise" case (`neg_average =
1 ≠ 0`); the RSI formula applies and the value is in `[0, 1)`. -/
theorem oscillator_RSI_spec_witness :
    (oscillator [3, 2, 1] 3 .RSI).getD 2 none =
      some (1 - 1 / (1 +
        pos_average (npDiff ((([3, 2, 1] : List ℚ).drop (2 + 1 - 3)).take 3))
        / neg_average (npDiff ((([3, 2, 1] : List ℚ).drop (2 + 1 - 3)).take 3)))) ∧
    0 ≤ 1 - 1 / (1 +
        pos_average (npDiff ((([3, 2, 1] : List ℚ).drop (2 + 1 - 3)).take 3))
        / neg_average (npDiff ((([3, 2, 1] : List ℚ).drop (2 + 1 - 3)).take 3))) ∧
    1 - 1 / (1 +
        pos_average (npDiff ((([3, 2, 1] : List ℚ).drop (2 + 1 - 3)).take 3))
        / neg_average (npDiff ((([3, 2, 1] : List ℚ).drop (2 + 1 - 3)).take 3))) < 1 := by
  have h := (oscillator_RSI_spec [3, 2, 1] 3 2 (by decide) (by decide)
    (by decide)).2.2 (by with_unfolding_all decide)
  exact ⟨h.1, h.2.1, h.2.2.1⟩

/-- Counterexample for C3 as stated: on the strictly falling series
`[3,2,1]` with period 3 at day 2 the RSI is in the "otherwise" branch
(`neg_average ≠ 0`, formula `1 - 1/(1 + pos/neg)` applies) yet its value is
exactly `0`, which does not lie strictly inside `(0, 1)`. -/
theorem oscillator_RSI_boundary_counterexample :
    neg_average (npDiff ((([3, 2, 1] : List ℚ).drop (2 + 1 - 3)).take 3)) ≠ 0 ∧
    pos_average (npDiff ((([3, 2, 1] : List ℚ).drop (2 + 1 - 3)).take 3)) = 0 ∧
    (oscillator [3, 2, 1] 3 .RSI).getD 2 none = some 0 ∧
    ¬ ((0 : ℚ) < 0 ∧ (0 : ℚ) < 1) := by
  refine ⟨?_, ?_, ?_, ?_⟩ <;> with_unfolding_all decide

/-- Loop exit: at a day past the series the momentum loop stops cleanly. -/
lemma momLoop_succ_stop (osc : List (Option ℚ)) (days cd day fuel : Nat)
    (h : ¬ day < days) : momLoop osc days cd day (fuel + 1) = ([], true) := by
  simp [momLoop, h]

/-- Crossing below with the trade day in bounds: record the evaluation and
the buy, continue at `day + cd`. -/
lemma momLoop_succ_below_in (osc : List (Option ℚ)) (days cd day fuel : Nat)
    (h : day < days) (hb : crossBelowB osc day = true) (ht : day + cd < days) :
    momLoop osc days cd day (fuel + 1) =
      (.eval day :: .trade .buy (day + cd) ::
          (momLoop osc days cd (day + cd) fuel).1,
        (momLoop osc days cd (day + cd) fuel).2) := by
  simp [momLoop, h, hb, ht]

/-- Crossing below with the trade day out of bounds: the buy call is made
and the run aborts. -/
lemma momLoop_succ_below_out (osc : List (Option ℚ)) (days cd day fuel : Nat)
    (h : day < days) (hb : crossBelowB osc day = true)
    (ht : ¬ day + cd < days) :
    momLoop osc days cd day (fuel + 1) =
      ([.eval day, .trade .buy (day + cd)], false) := by
  simp [momLoop, h, hb, ht]

/-- Crossing above with the trade day in bounds. -/
lemma momLoop_succ_above_in (osc : List (Option ℚ)) (days cd day fuel : Nat)
    (h : day < days) (hb : crossBelowB osc day = false)
    (ha : crossAboveB osc day = true) (ht : day + cd < days) :
    momLoop osc days cd day (fuel + 1) =
      (.eval day :: .trade .sell (day + cd) ::
          (momLoop osc days cd (day + cd) fuel).1,
        (momLoop osc days cd (day + cd) fuel).2) := by
  simp [momLoop, h, hb, ha, ht]

/-- Crossing above with the trade day out of bounds. -/
lemma momLoop_succ_above_out (osc : List (Option ℚ)) (days cd day fuel : Nat)
    (h : day < days) (hb : crossBelowB osc day = false)
    (ha : crossAboveB osc day = true) (ht : ¬ day + cd < days) :
    momLoop osc days cd day (fuel + 1) =
      ([.eval day, .trade .sell (day + cd)], false) := by
  simp [momLoop, h, hb, ha, ht]

/-- No crossing: the day pointer advances by one. -/
lemma momLoop_succ_none (osc : List (Option ℚ)) (days cd day fuel : Nat)
    (h : day < days) (hb : crossBelowB osc day = false)
    (ha : crossAboveB osc day = false) :
    momLoop osc days cd day (fuel + 1) =
      (.eval day :: (momLoop osc days cd (day + 1) fuel).1,
        (momLoop osc days cd (day + 1) fuel).2) := by
  simp [momLoop, h, hb, ha]

/-- Every day evaluated by the momentum loop is at or after its start
day. -/
lemma momLoop_eval_ge (osc : List (Option ℚ)) (days cd : Nat) :
    ∀ fuel s e, MomEvent.eval e ∈ (momLoop osc days cd s fuel).1 → s ≤ e := by
  intro fuel
  induction fuel with
  | zero => intro s e h; simp [momLoop] at h
  | succ fuel ih =>
    intro s e h
    by_cases hs : s < days
    · by_cases hb : crossBelowB osc s = true
      · by_cases ht : s + cd < days
        · rw [momLoop_succ_below_in osc days cd s fuel hs hb ht] at h
          rcases List.mem_cons.1 h with h | h
          · cases h; exact le_refl s
          · rcases List.mem_cons.1 h with h | h
            · cases h
            · exact le_trans (Nat.le_add_right s cd) (ih (s + cd) e h)
        · rw [momLoop_succ_below_out osc days cd s fuel hs hb ht] at h
          rcases List.mem_cons.1 h with h | h
          · cases h; exact le_refl s
          · rcases List.mem_cons.1 h with h | h
            · cases h
            · cases h
      · by_cases ha : crossAboveB osc s = true
        · by_cases ht : s + cd < days
          · rw [momLoop_succ_above_in osc days cd s fuel hs
              (Bool.not_eq_true _ ▸ hb) ha ht] at h
            rcases List.mem_cons.1 h with h | h
            · cases h; exact le_refl s
            · rcases List.mem_cons.1 h with h | h
              · cases h
              · exact le_trans (Nat.le_add_right s cd) (ih (s + cd) e h)
          · rw [momLoop_succ_above_out osc days cd s fuel hs
              (Bool.not_eq_true _ ▸ hb) ha ht] at h
            rcases List.mem_cons.1 h with h | h
            · cases h; exact le_refl s
            · rcases List.mem_cons.1 h with h | h
              · cases h
              · cases h
        · rw [momLoop_succ_none osc days cd s fuel hs
            (Bool.not_eq_true _ ▸ hb) (Bool.not_eq_true _ ▸ ha)] at h
          rcases List.mem_cons.1 h with h | h
          · cases h; exact le_refl s
          · exact le_trans (Nat.le_succ s) (ih (s + 1) e h)
    · rw [momLoop_succ_stop osc days cd s fuel hs] at h
      cases h

/-- The two momentum crossings cannot fire on the same day: a crossing
below forces `osc[day] ≤ 1/4`, a crossing above forces `osc[day] ≥ 3/4`. -/
lemma crossBelow_above_disjoint (osc : List (Option ℚ)) (day : Nat)
    (hb : crossBelowB osc day = true) : crossAboveB osc day = false := by
  have h2 : oleB (osc.getD day none) (1 / 4) = true :=
    ((Bool.and_eq_true _ _ ▸ hb :
      ogtB (osc.getD (day - 1) none) (1 / 4) = true ∧
        oleB (osc.getD day none) (1 / 4) = true)).2
  cases hcur : osc.getD day none with
  | none => rw [hcur] at h2; simp [oleB, oleO] at h2
  | some x =>
      rw [hcur] at h2
      have hx : x ≤ 1 / 4 := by simpa [oleB, oleO] using h2
      have hge : ogeB (some x) (3 / 4) = false := by
        simp only [ogeB, ogeO, decide_eq_false_iff_not]
        intro hc
        have : (3 : ℚ) / 4 ≤ 1 / 4 := le_trans hc hx
        norm_num at this
      unfold crossAboveB
      rw [hcur, hge, Bool.and_false]

/-- Core of C7, by induction over the loop: whenever the momentum loop
evaluates a day `d` whose oscillator values show a crossing, the matching
trade is issued at `d + cd`, and no evaluated day lies strictly between `d`
and `d + cd`. -/
lemma momLoop_cross_spec (osc : List (Option ℚ)) (days cd : Nat) :
    ∀ fuel s d, MomEvent.eval d ∈ (momLoop osc days cd s fuel).1 →
      (crossBelowB osc d = true →
        MomEvent.trade .buy (d + cd) ∈ (momLoop osc days cd s fuel).1) ∧
      (crossAboveB osc d = true →
        MomEvent.trade .sell (d + cd) ∈ (momLoop osc days cd s fuel).1) ∧
      ((crossBelowB osc d = true ∨ crossAboveB osc d = true) →
        ∀ e, MomEvent.eval e ∈ (momLoop osc days cd s fuel).1 →
          ¬ (d < e ∧ e < d + cd)) := by
  intro fuel
  induction fuel with
  | zero => intro s d h; simp [momLoop] at h
  | succ fuel ih =>
    intro s d h
    by_cases hs : s < days
    case neg =>
      rw [momLoop_succ_stop osc days cd s fuel hs] at h
      cases h
    by_cases hb : crossBelowB osc s = true
    · by_cases ht : s + cd < days
      · rw [momLoop_succ_below_in osc days cd s fuel hs hb ht] at h ⊢
        rcases List.mem_cons.1 h with hds | h2
        · cases hds
          refine ⟨fun _ => List.mem_cons.2 (Or.inr (List.mem_cons_self _ _)),
            fun hca => absurd hca ?_, fun _ => ?_⟩
          · rw [crossBelow_above_disjoint osc s hb]
            simp
          · intro e he
            rcases List.mem_cons.1 he with he1 | he2
            · cases he1; omega
            · rcases List.mem_cons.1 he2 with he1 | he3
              · cases he1
              · have := momLoop_eval_ge osc days cd fuel (s + cd) e he3
                omega
        · rcases List.mem_cons.1 h2 with hds | h3
          · cases hds
          · have IH := ih (s + cd) d h3
            have hdge := momLoop_eval_ge osc days cd fuel (s + cd) d h3
            refine ⟨fun hcb =>
                List.mem_cons.2 (Or.inr (List.mem_cons.2 (Or.inr (IH.1 hcb)))),
              fun hca =>
                List.mem_cons.2 (Or.inr (List.mem_cons.2 (Or.inr (IH.2.1 hca)))),
              fun hor => ?_⟩
            intro e he
            rcases List.mem_cons.1 he with he1 | he2
            · cases he1; omega
            · rcases List.mem_cons.1 he2 with he1 | he3
              · cases he1
              · exact IH.2.2 hor e he3
      · rw [momLoop_succ_below_out osc days cd s fuel hs hb ht] at h ⊢
        rcases List.mem_cons.1 h with hds | h2
        · cases hds
          refine ⟨fun _ => List.mem_cons.2 (Or.inr (List.mem_cons_self _ _)),
            fun hca => absurd hca ?_, fun _ => ?_⟩
          · rw [crossBelow_above_disjoint osc s hb]
            simp
          · intro e he
            rcases List.mem_cons.1 he with he1 | he2
            · cases he1; omega
            · rcases List.mem_cons.1 he2 with he1 | he3
              · cases he1
              · cases he3
        · rcases List.mem_cons.1 h2 with hds | h3
          · cases hds
          · cases h3
    · have hbf : crossBelowB osc s = false := Bool.not_eq_true _ ▸ hb
      by_cases ha : crossAboveB osc s = true
      · by_cases ht : s + cd < days
        · rw [momLoop_succ_above_in osc days cd s fuel hs hbf ha ht] at h ⊢
          rcases List.mem_cons.1 h with hds | h2
          · cases hds
            refine ⟨fun hcb => absurd hcb (by rw [hbf]; simp),
              fun _ => List.mem_cons.2 (Or.inr (List.mem_cons_self _ _)),
              fun _ => ?_⟩
            intro e he
            rcases List.mem_cons.1 he with he1 | he2
            · cases he1; omega
            · rcases List.mem_cons.1 he2 with he1 | he3
              · cases he1
              · have := momLoop_eval_ge osc days cd fuel (s + cd) e he3
                omega
          · rcases List.mem_cons.1 h2 with hds | h3
            · cases hds
            · have IH := ih (s + cd) d h3
              have hdge := momLoop_eval_ge osc days cd fuel (s + cd) d h3
              refine ⟨fun hcb =>
                  List.mem_cons.2 (Or.inr (List.mem_cons.2 (Or.inr (IH.1 hcb)))),
                fun hca =>
                  List.mem_cons.2 (Or.inr (List.mem_cons.2 (Or.inr (IH.2.1 hca)))),
                fun hor => ?_⟩
              intro e he
              rcases List.mem_cons.1 he with he1 | he2
              · cases he1; omega
              · rcases List.mem_cons.1 he2 with he1 | he3
                · cases he1
                · exact IH.2.2 hor e he3
        · rw [momLoop_succ_above_out osc days cd s fuel hs hbf ha ht] at h ⊢
          rcases List.mem_cons.1 h with hds | h2
          · cases hds
            refine ⟨fun hcb => absurd hcb (by rw [hbf]; simp),
              fun _ => List.mem_cons.2 (Or.inr (List.mem_cons_self _ _)),
              fun _ => ?_⟩
            intro e he
            rcases List.mem_cons.1 he with he1 | he2
            · cases he1; omega
            · rcases List.mem_cons.1 he2 with he1 | he3
              · cases he1
              · cases he3
          · rcases List.mem_cons.1 h2 with hds | h3
            · cases hds
            · cases h3
      · have haf : crossAboveB osc s = false := Bool.not_eq_true _ ▸ ha
        rw [momLoop_succ_none osc days cd s fuel hs hbf haf] at h ⊢
        rcases List.mem_cons.1 h with hds | h2
        · cases hds
          exact ⟨fun hcb => absurd hcb (by rw [hbf]; simp),
            fun hca => absurd hca (by rw [haf]; simp),
            fun hor => absurd hor (by rw [hbf, haf]; simp)⟩
        · have IH := ih (s + 1) d h2
          have hdge := momLoop_eval_ge osc days cd fuel (s + 1) d h2
          refine ⟨fun hcb => List.mem_cons.2 (Or.inr (IH.1 hcb)),
            fun hca => List.mem_cons.2 (Or.inr (IH.2.1 hca)),
            fun hor => ?_⟩
          intro e he
          rcases List.mem_cons.1 he with he1 | he2
          · cases he1; omega
          · exact IH.2.2 hor e he2

/-- C7: in the momentum day loop (run with enough fuel for the whole
series, as the strategy does), a crossing below `0.25` detected at an
evaluated day `d` issues the buy exactly `cool_down` days later, a crossing
above `0.75` issues the sell exactly `cool_down` days later, and no day
strictly between `d` and `d + cool_down` is ever evaluated for a
crossing. -/
theorem momentum_cooldown_spec (osc : List (Option ℚ))
    (days cool_down period d : Nat)
    (hev : MomEvent.eval d ∈ (momLoop osc days cool_down period (days + 1)).1) :
    (crossBelowB osc d = true →
      MomEvent.trade .buy (d + cool_down) ∈
        (momLoop osc days cool_down period (days + 1)).1 ∧
      ∀ e, MomEvent.eval e ∈ (momLoop osc days cool_down period (days + 1)).1 →
        ¬ (d < e ∧ e < d + cool_down)) ∧
    (crossAboveB osc d = true →
      MomEvent.trade .sell (d + cool_down) ∈
        (momLoop osc days cool_down period (days + 1)).1 ∧
      ∀ e, MomEvent.eval e ∈ (momLoop osc days cool_down period (days + 1)).1 →
        ¬ (d < e ∧ e < d + cool_down)) := by
  have h := momLoop_cross_spec osc days cool_down (days + 1) period d hev
  exact ⟨fun hcb => ⟨h.1 hcb, h.2.2 (Or.inl hcb)⟩,
    fun hca => ⟨h.2.1 hca, h.2.2 (Or.inr hca)⟩⟩

/-- Witness for C7 at concrete inputs: the stochastic oscillator of
`[1,2,1,1]` crosses below `0.25` at day 2, and the series with oscillator
values `[NaN, 0, 1, NaN]` crosses above `0.75` at day 2; with
`cool_down = 1` the trades happen at day 3. -/
theorem momentum_cooldown_spec_witness :
    (crossBelowB (oscillator [1, 2, 1, 1] 2 .stochastic) 2 = true →
      MomEvent.trade .buy (2 + 1) ∈
        (momLoop (oscillator [1, 2, 1, 1] 2 .stochastic) 4 1 2 (4 + 1)).1 ∧
      ∀ e, MomEvent.eval e ∈
          (momLoop (oscillator [1, 2, 1, 1] 2 .stochastic) 4 1 2 (4 + 1)).1 →
        ¬ (2 < e ∧ e < 2 + 1)) ∧
    (crossAboveB [none, some 0, some 1, none] 2 = true →
      MomEvent.trade .sell (2 + 1) ∈
        (momLoop [none, some 0, some 1, none] 4 1 2 (4 + 1)).1 ∧
      ∀ e, MomEvent.eval e ∈
          (momLoop [none, some 0, some 1, none] 4 1 2 (4 + 1)).1 →
        ¬ (2 < e ∧ e < 2 + 1)) :=
  ⟨(momentum_cooldown_spec (oscillator [1, 2, 1, 1] 2 .stochastic) 4 1 2 2
      (by with_unfolding_all decide)).1,
    (momentum_cooldown_spec [none, some 0, some 1, none] 4 1 2 2
      (by with_unfolding_all decide)).2⟩

/-- A completed momentum stock loop ends with the forced last-day sell of
that stock. -/
lemma momStockCalls_ok_sell (rows : List (List ℚ)) (n : Nat) (t : OscType)
    (cd s : Nat) :
    (momStockCalls rows n t cd s).2 = true →
    Call.mk .sell (rows.length - 1) s ∈ (momStockCalls rows n t cd s).1 := by
  simp only [momStockCalls]
  intro h
  split at h
  case isTrue hc =>
    rw [if_pos hc]
    exact List.mem_append.2 (Or.inr (List.mem_singleton.2 rfl))
  case isFalse hc =>
    exact absurd h (by simp)

/-- A completed momentum run contains the forced last-day sell of every
stock it processed. -/
lemma momRun_final_sell (rows : List (List ℚ)) (n : Nat) (t : OscType)
    (cd : Nat) :
    ∀ l : List Nat, (momRun rows n t cd l).2 = true →
      ∀ s ∈ l, Call.mk .sell (rows.length - 1) s ∈ (momRun rows n t cd l).1 := by
  intro l
  induction l with
  | nil => intro _ s hs; cases hs
  | cons a rest ih =>
    simp only [momRun]
    intro hok s hs
    split at hok
    case isTrue hc =>
      have hok2 : (momRun rows n t cd rest).2 = true := hok
      rw [if_pos hc]
      rcases List.mem_cons.1 hs with hs | hs
      · subst hs
        exact List.mem_append.2 (Or.inl (momStockCalls_ok_sell rows n t cd s hc))
      · exact List.mem_append.2 (Or.inr (ih hok2 s hs))
    case isFalse hc =>
      exact absurd (show (false : Bool) = true from hok) (by simp)

/-- C8 (amended): `random` and `crossing_averages` sell every stock on the
last day unconditionally; `momentum` does so whenever its run completes —
a crossing whose trade day falls past the end of the series raises an
out-of-bounds access that aborts the run before the final sells (see the
counterexample). -/
theorem strategies_final_sell (dec : Nat → Nat → Decision)
    (rows rows2 rows3 : List (List ℚ)) (period psma pfma : Nat)
    (n : Nat) (t : OscType) (cd : Nat) (s1 s2 s3 : Nat)
    (h1 : s1 < (rows.headD []).length)
    (h2 : s2 < (rows2.headD []).length)
    (hmom : (momentum rows3 n t cd).2 = true)
    (h3 : s3 < (rows3.headD []).length) :
    Call.mk .sell (rows.length - 1) s1 ∈ random dec rows period ∧
    Call.mk .sell (rows2.length - 1) s2 ∈ crossing_averages rows2 psma pfma ∧
    Call.mk .sell (rows3.length - 1) s3 ∈ (momentum rows3 n t cd).1 := by
  refine ⟨?_, ?_, ?_⟩
  · simp only [random]
    exact List.mem_append.2 (Or.inr
      (List.mem_map.2 ⟨s1, List.mem_range.2 h1, rfl⟩))
  · simp only [crossing_averages]
    refine List.mem_flatMap.2 ⟨s2, List.mem_range.2 h2, ?_⟩
    simp only [crossingStockCalls]
    exact List.mem_append.2 (Or.inr (List.mem_singleton.2 rfl))
  · exact momRun_final_sell rows3 n t cd _ hmom s3 (List.mem_range.2 h3)

/-- Witness for C8 (amended) at concrete inputs: a hold-only random run
over three days and two stocks, a three-day crossing run, and a completed
momentum run on `[1,2,1,1]` with `cool_down = 1`. -/
theorem strategies_final_sell_witness :
    Call.mk .sell 2 1 ∈
      random (fun _ _ => .hold) [[1, 2], [3, 4], [5, 6]] 2 ∧
    Call.mk .sell 2 0 ∈ crossing_averages [[1], [2], [3]] 2 1 ∧
    Call.mk .sell 3 0 ∈ (momentum [[1], [2], [1], [1]] 2 .stochastic 1).1 := by
  have h := strategies_final_sell (fun _ _ => .hold)
    [[1, 2], [3, 4], [5, 6]] [[1], [2], [3]] [[1], [2], [1], [1]]
    2 2 1 2 .stochastic 1 1 0 0
    (by decide) (by decide) (by with_unfolding_all decide) (by decide)
  exact ⟨h.1, h.2.1, h.2.2⟩

/-- Counterexample for C8 as stated: on `[1,2,1,1]` with period 2 and
`cool_down = 10`, the momentum loop's buy at day 12 is out of bounds (4-day
series); the run aborts and the forced sell of stock 0 on the last day
(day 3) is never called. -/
theorem momentum_no_final_sell_counterexample :
    ([[1], [2], [1], [1]] : List (List ℚ)).length - 1 = 3 ∧
    (0 : Nat) < (([[1], [2], [1], [1]] : List (List ℚ)).headD []).length ∧
    (momentum [[1], [2], [1], [1]] 2 .stochastic 10).2 = false ∧
    Call.mk .sell 3 0 ∉ (momentum [[1], [2], [1], [1]] 2 .stochastic 10).1 := by
  refine ⟨?_, ?_, ?_, ?_⟩ <;> with_unfolding_all decide

end Trading
